import Mathlib

/-!
# A shallow embedding of the rustcask storage engine

This file models the core of the `rustcask` Bitcask-style key-value store:

* the `bincode` record codec used for `LogFileEntry` (`src/logfile.rs`),
* the log-file iterator (`LogFileIterator::next`, `src/logfile.rs`),
* the keydir (`src/keydir.rs`),
* the writer state machine — open, set, remove, rotation, merge
  (`src/writer.rs`, `src/lib.rs`),
* the position-tracking buffered reader (`src/bufio.rs`),
* the clone semantics of the engine handle (`src/lib.rs`).

Keys, values and file contents are byte lists (`List Nat`, each element a
byte value).  File-system state is explicit: `store` maps each generation to
the content of the data file created for it, and `dir` lists the generations
currently present in the engine directory (ascending, as produced by
`list_generations` + `sort_unstable`).  Panics and error returns of fallible
operations are modelled with `Option` (`none` = panic/error).
-/

namespace Rustcask

/-- Keys, values and file contents: byte strings (`Vec<u8>`). -/
abbrev Bytes := List Nat

/-- `LogIndex` (`src/logfile.rs`): byte offset and byte length of a log entry. -/
structure LogIndex where
  offset : Nat
  len : Nat
deriving DecidableEq, Repr

/-- `KeyDirEntry` (`src/keydir.rs`): generation plus extent of the live record. -/
structure KeyDirEntry where
  data_file_gen : Nat
  index : LogIndex
deriving DecidableEq, Repr

/-- The keydir (`src/keydir.rs`): a `HashMap<Vec<u8>, KeyDirEntry>`, modelled as
an association list in which `set` replaces any previous binding. -/
abbrev KeyDir := List (Bytes × KeyDirEntry)

/-- `KeyDir::get`. -/
def kdGet (kd : KeyDir) (k : Bytes) : Option KeyDirEntry :=
  match kd with
  | [] => none
  | (k', e) :: rest => if k' = k then some e else kdGet rest k

/-- Erase a key's binding (the map part of `KeyDir::remove`). -/
def kdRemoveKey (kd : KeyDir) (k : Bytes) : KeyDir :=
  kd.filter (fun p => p.1 ≠ k)

/-- `KeyDir::set`: insert or replace. -/
def kdSet (kd : KeyDir) (k : Bytes) (e : KeyDirEntry) : KeyDir :=
  (k, e) :: kdRemoveKey kd k

/-! ## The record codec

`bincode::serialize` of `LogFileEntry { key : Vec<u8>, value : Option<Vec<u8>> }`
with bincode 1.x defaults: fixed-width little-endian integers. A `Vec<u8>` is a
`u64` little-endian length followed by the raw bytes; an `Option` is one tag
byte (0 = `None`, 1 = `Some`) followed by the payload when present. -/

/-- `w`-byte little-endian encoding of `n` (mod `256 ^ w`). -/
def leBytes : Nat → Nat → Bytes
  | 0, _ => []
  | w + 1, n => n % 256 :: leBytes w (n / 256)

/-- Read back a little-endian byte string as an unsigned integer. -/
def leValue : Bytes → Nat
  | [] => 0
  | b :: bs => b + 256 * leValue bs

/-- Encoding of one `LogFileEntry`; `value = none` is a tombstone. -/
def encodeEntry (key : Bytes) (value : Option Bytes) : Bytes :=
  leBytes 8 key.length ++ key ++
    match value with
    | none => [0]
    | some v => 1 :: (leBytes 8 v.length ++ v)

/-- Outcome of `bincode::deserialize_from::<LogFileEntry>` on a byte stream. -/
inductive DecodeResult where
  /-- One record consumed; `rest` is the remainder of the stream. -/
  | ok (key : Bytes) (value : Option Bytes) (rest : Bytes)
  /-- An `io::ErrorKind::UnexpectedEof` was hit while reading: the stream ended,
  whether cleanly at a record boundary or in the middle of a record. -/
  | truncated
  /-- A non-EOF deserialization error (e.g. an invalid `Option` tag byte). -/
  | badData
deriving DecidableEq, Repr

/-- Read the optional value: a length-prefixed byte string following a
`Some` tag. -/
def decodeValueBytes (key : Bytes) (r3 : Bytes) : DecodeResult :=
  if 8 ≤ r3.length then
    if leValue (r3.take 8) ≤ (r3.drop 8).length then
      .ok key (some ((r3.drop 8).take (leValue (r3.take 8))))
        ((r3.drop 8).drop (leValue (r3.take 8)))
    else .truncated
  else .truncated

/-- Read the `Option` tag byte: 0 = tombstone, 1 = value follows, anything
else is a deserialization error. -/
def decodeTag (key : Bytes) (r2 : Bytes) : DecodeResult :=
  match r2 with
  | [] => .truncated
  | t :: r3 => if t = 0 then .ok key none r3 else if t = 1 then decodeValueBytes key r3
               else .badData

/-- Read the key bytes once the key length is known. -/
def decodeKeyBytes (keyLen : Nat) (r1 : Bytes) : DecodeResult :=
  if keyLen ≤ r1.length then decodeTag (r1.take keyLen) (r1.drop keyLen)
  else .truncated

/-- Consume one encoded `LogFileEntry` from the front of a stream: key length,
key bytes, option tag, and (when present) value length and value bytes. -/
def decodeEntry (input : Bytes) : DecodeResult :=
  if 8 ≤ input.length then decodeKeyBytes (leValue (input.take 8)) (input.drop 8)
  else .truncated

/-! ## The log-file iterator

`LogFileIterator::next` (`src/logfile.rs`) records the position before
decoding, decodes one record, and yields the pair together with the extent
`(offset, position after − position before)`.  On a `bincode` error it
inspects the kind: an `io` error of kind `UnexpectedEof` ends the iteration
(`None`); every other error panics. -/

/-- A record: key and optional value (`None` = tombstone). -/
abbrev Record := Bytes × Option Bytes

def encodeRecord (r : Record) : Bytes := encodeEntry r.1 r.2

/-- The byte content of a data file holding exactly the records `rs`. -/
def encodeAll : List Record → Bytes
  | [] => []
  | r :: rs => encodeRecord r ++ encodeAll rs

/-- The `(record, extent)` pairs the iterator should yield for records laid
out contiguously starting at `off`. -/
def withIndices : List Record → Nat → List (Record × LogIndex)
  | [], _ => []
  | r :: rs, off =>
    (r, ⟨off, (encodeRecord r).length⟩) :: withIndices rs (off + (encodeRecord r).length)

/-- `LogFileIterator` collected into a list (fuel-indexed so the definition is
executable; `fileRecords` supplies sufficient fuel).  `some l` is the yielded
sequence, `none` models a panic on a non-EOF deserialization error; an
`UnexpectedEof` — clean **or mid-record** — simply ends the sequence, exactly
as `next` returns `None` for any `io::ErrorKind::UnexpectedEof`. -/
def fileRecordsAux : Nat → Bytes → Nat → Option (List (Record × LogIndex))
  | 0, _, _ => none
  | fuel + 1, bytes, off =>
    match decodeEntry bytes with
    | .ok k v rest =>
      match fileRecordsAux fuel rest (off + (bytes.length - rest.length)) with
      | none => none
      | some tl => some (((k, v), ⟨off, bytes.length - rest.length⟩) :: tl)
    | .truncated => some []
    | .badData => none

/-- All `(record, extent)` pairs yielded by a `LogFileIterator` over a file
with content `bytes`. -/
def fileRecords (bytes : Bytes) : Option (List (Record × LogIndex)) :=
  fileRecordsAux (bytes.length + 1) bytes 0

/-- Both components of a record fit in a `u64` length prefix (always true of
real `Vec<u8>` data). -/
def validRecord (r : Record) : Bool :=
  decide (r.1.length < 2 ^ 64) &&
    (match r.2 with | none => true | some v => decide (v.length < 2 ^ 64))

/-! ## Rebuilding the keydir from the data files

`build_keydir` / `populate_keydir_with_data_file` (`src/lib.rs`,
`src/keydir.rs`): scan the data files in ascending generation order; for each
yielded `(entry, index)`, a tombstone removes the key and any other record
overwrites it. -/

/-- Apply one `(record, extent)` pair from generation `gen` to the keydir. -/
def replayStep (gen : Nat) (kd : KeyDir) (ri : Record × LogIndex) : KeyDir :=
  match ri.1.2 with
  | none => kdRemoveKey kd ri.1.1
  | some _ => kdSet kd ri.1.1 ⟨gen, ri.2⟩

/-- `populate_keydir_with_data_file`: replay one data file into the keydir.
`none` models the panic on an iterator error. -/
def populateKeydir (bytes : Bytes) (gen : Nat) (kd : KeyDir) : Option KeyDir :=
  (fileRecords bytes).map (fun rs => rs.foldl (replayStep gen) kd)

/-- `build_keydir`: replay a list of data files (already in ascending
generation order) into an accumulating keydir. -/
def buildKeydir : List (Nat × Bytes) → KeyDir → Option KeyDir
  | [], kd => some kd
  | (gen, bytes) :: files, kd =>
    match populateKeydir bytes gen kd with
    | none => none
    | some kd' => buildKeydir files kd'

/-! ## The writer state machine

State of the engine as mutated by `Writer` (`src/writer.rs`) together with the
file-system contents.  `store` records the content of the data file created
for each generation (an inode: it survives `fs::remove_file`, which only
unlinks the name); `dir` is the set of generations whose data file is
currently present in the directory, kept ascending as `list_generations` +
`sort_unstable` would produce it.  The `BufWriter` over the active data file
is `writer_gen` (which file the handle points to) plus `writer_pos` (its
stream position).  The files are opened with read+write+create and no append
flag, so a freshly opened handle is at position 0 regardless of the file's
length. -/

structure WriterState where
  store : List (Nat × Bytes)
  dir : List Nat
  keydir : KeyDir
  active_generation : Nat
  writer_gen : Nat
  writer_pos : Nat
  active_data_file_size : Nat
  max_data_file_size : Nat
  sync_mode : Bool
deriving DecidableEq, Repr

/-- Look a generation up in the inode store. -/
def storeGet : List (Nat × Bytes) → Nat → Option Bytes
  | [], _ => none
  | (g', b) :: rest, g => if g' = g then some b else storeGet rest g

/-- Replace (or append) the content recorded for a generation. -/
def storeSet : List (Nat × Bytes) → Nat → Bytes → List (Nat × Bytes)
  | [], g, b => [(g, b)]
  | (g', b') :: rest, g, b =>
    if g' = g then (g, b) :: rest else (g', b') :: storeSet rest g b

/-- Insert a generation into the ascending directory listing. -/
def insertGen (g : Nat) : List Nat → List Nat
  | [] => [g]
  | x :: xs => if g < x then g :: x :: xs else if g = x then x :: xs else x :: insertGen g xs

/-- The content of the data file for `g` as seen through the directory:
`none` when no such file is linked (so `File::open` would fail). -/
def dirFile (s : WriterState) (g : Nat) : Option Bytes :=
  if g ∈ s.dir then storeGet s.store g else none

/-- `write_all` at a stream position: bytes already past the cursor are
overwritten, the file grows only beyond its previous end. -/
def overwriteAt (content : Bytes) (pos : Nat) (data : Bytes) : Bytes :=
  content.take pos ++ data ++ content.drop (pos + data.length)

/-- `OpenOptions::new().read(true).write(true).create(true).open(...)`:
create the file if absent (empty), keep its content otherwise, and link it in
the directory. -/
def createDataFile (s : WriterState) (g : Nat) : WriterState :=
  { s with
    store := match storeGet s.store g with
             | some _ => s.store
             | none => s.store ++ [(g, [])],
    dir := insertGen g s.dir }

/-- `Writer::rotate_active_data_file`: bump the generation, open the new data
file (a fresh `BufWriter`, position 0), reset the size counter. -/
def rotateActiveDataFile (s : WriterState) : WriterState :=
  let s' := createDataFile { s with active_generation := s.active_generation + 1 }
    (s.active_generation + 1)
  { s' with
    writer_gen := s.active_generation + 1
    writer_pos := 0
    active_data_file_size := 0 }

/-- `Writer::write_to_active_data_file`: note the stream position, append the
encoded entry there, flush, bump the size counter, and rotate when the
counter reaches `max_data_file_size`.  Returns the `LogIndex` and the
generation the bytes were written to. -/
def writeToActiveDataFile (s : WriterState) (encoded : Bytes) : (LogIndex × Nat) × WriterState :=
  let file_offset := s.writer_pos
  let content := (storeGet s.store s.writer_gen).getD []
  let s1 : WriterState :=
    { s with
      store := storeSet s.store s.writer_gen (overwriteAt content file_offset encoded)
      writer_pos := file_offset + encoded.length
      active_data_file_size := s.active_data_file_size + encoded.length }
  let written_generation := s1.active_generation
  let s2 := if s1.max_data_file_size ≤ s1.active_data_file_size
            then rotateActiveDataFile s1 else s1
  ((⟨file_offset, encoded.length⟩, written_generation), s2)

/-- `Writer::set` (`src/writer.rs`; `RustCask::set` in `src/lib.rs` performs
the same write, keydir update and rotation): encode the entry with the value
present, write it, then point the keydir at the written extent. -/
def setOp (s : WriterState) (key value : Bytes) : WriterState :=
  let r := writeToActiveDataFile s (encodeEntry key (some value))
  { r.2 with keydir := kdSet r.2.keydir key ⟨r.1.2, r.1.1⟩ }

/-- The read-back `get` performs once a keydir entry was found
(`src/lib.rs:184-213`): fetch this handle's reader for the entry's generation
(when none exists, `data_file_readers.get_mut(..).expect(..)` panics), then
call `reader.seek(SeekFrom::Start(offset))`.  `BufReaderWithPos`'s `Seek`
implementation re-enters itself unconditionally (`src/bufio.rs:51`; see
`seekModel`/`seekModel_eq_none`: no stack depth lets it return), so the seek
never returns and the operation aborts.  Both branches are therefore `none`:
a panic in the first, the non-returning seek in the second — the
deserialize, key assertion and tombstone `expect` that follow in the source
are never reached. -/
def readValueChecked (s : WriterState) (e : KeyDirEntry) (_key : Bytes) :
    Option (Option Bytes) :=
  match dirFile s e.data_file_gen with
  | none => none
  | some _ => none

/-- The read-back `remove` performs on the prior entry
(`src/writer.rs:395-416`): fetch the reader for the entry's generation (panic
when absent), then `reader.seek(SeekFrom::Start(offset))` — which re-enters
`BufReaderWithPos::seek` and never returns (`src/bufio.rs:51`,
`seekModel_eq_none`).  The deserialization of the prior value is never
reached; both branches abort (`none`). -/
def readValueUnchecked (s : WriterState) (e : KeyDirEntry) : Option (Option Bytes) :=
  match dirFile s e.data_file_gen with
  | none => none
  | some _ => none

/-- `RustCask::get`: look the key up in the keydir; absent keys return
`None` without touching any file; for a present key the read-back
(`readValueChecked`) aborts in the recursive seek, so `get` of a live key
never returns.  The outer `Option` models errors, panics and the
non-returning seek. -/
def modelGet (s : WriterState) (key : Bytes) : Option (Option Bytes) :=
  match kdGet s.keydir key with
  | none => some none
  | some e => readValueChecked s e key

/-- `Writer::remove`: append a tombstone (which may itself rotate the active
file), then remove the key from the keydir.  These state changes complete
before any read: when no prior entry existed, `Ok(None)` is returned; when
one existed, the source then reads the prior value back
(`readValueUnchecked`), which aborts in the recursive seek — the tombstone
and the keydir removal are durable, but the call never returns. -/
def removeOp (s : WriterState) (key : Bytes) : Option (Option Bytes) × WriterState :=
  let r := writeToActiveDataFile s (encodeEntry key none)
  let s1 := r.2
  match kdGet s1.keydir key with
  | none => (some none, { s1 with keydir := kdRemoveKey s1.keydir key })
  | some e =>
    let s2 := { s1 with keydir := kdRemoveKey s1.keydir key }
    (readValueUnchecked s2 e, s2)

/-- `RustCaskBuilder::open` + `Writer::new`: the highest listed generation
(or 0) becomes active; its data file is opened with read+write+create — the
`BufWriter` therefore starts at stream position 0 — and the size counter is
initialised from the file's length (`metadata().len()`).  The keydir is
rebuilt by replaying the listed data files in ascending order; `none` models
a panic while scanning.  (The legacy builder in `src/lib.rs` initialises the
size counter to 0 instead; this model follows `Writer::new`.) -/
def openModel (store : List (Nat × Bytes)) (dir : List Nat) (maxSize : Nat)
    (sync : Bool) : Option WriterState :=
  let active := dir.getLast?.getD 0
  let files : List (Nat × Bytes) :=
    dir.filterMap (fun g => (storeGet store g).map (fun b => (g, b)))
  match buildKeydir files [] with
  | none => none
  | some kd =>
    let store1 := match storeGet store active with
                  | some _ => store
                  | none => store ++ [(active, [])]
    some
      { store := store1
        dir := insertGen active dir
        keydir := kd
        active_generation := active
        writer_gen := active
        writer_pos := 0
        active_data_file_size := ((storeGet store1 active).getD []).length
        max_data_file_size := maxSize
        sync_mode := sync }

/-- The state after opening an empty directory: generation 0 created empty,
empty keydir. -/
def freshState (maxSize : Nat) (sync : Bool) : WriterState :=
  { store := [(0, [])]
    dir := [0]
    keydir := []
    active_generation := 0
    writer_gen := 0
    writer_pos := 0
    active_data_file_size := 0
    max_data_file_size := maxSize
    sync_mode := sync }

/-! ## Sequences of operations -/

/-- A mutation through the public API. -/
inductive Op where
  | set (key value : Bytes)
  | remove (key : Bytes)
deriving DecidableEq, Repr

/-- Keys and values of an operation fit in the `u64` length prefixes. -/
def validOp : Op → Bool
  | .set k v => decide (k.length < 2 ^ 64) && decide (v.length < 2 ^ 64)
  | .remove k => decide (k.length < 2 ^ 64)

def runOp (s : WriterState) : Op → WriterState
  | .set k v => setOp s k v
  | .remove k => (removeOp s k).2

def runOps (s : WriterState) : List Op → WriterState
  | [] => s
  | op :: ops => runOps (runOp s op) ops

/-- Whether the engine survives the sequence.  A `remove` of a key that is
in the keydir writes its tombstone, deletes the keydir entry and then reads
the prior value back through the non-returning recursive seek — the process
aborts there and no later operation (or close) ever runs.  Only sequences
whose removes all target absent keys complete.  (`set` never reads, so it
always completes.) -/
def opsComplete : WriterState → List Op → Bool
  | _, [] => true
  | s, .set k v :: rest => opsComplete (setOp s k v) rest
  | s, .remove k :: rest =>
    match kdGet s.keydir k with
    | some _ => false
    | none => opsComplete (removeOp s k).2 rest

/-! ## The writer invariant

Everything that holds of the engine state in every state reachable by
`set`/`remove` sequences from a fresh open of an empty directory:

* the `BufWriter` handle points at the active data file and its cursor sits
  at the end of that file;
* the directory is exactly the set of created generations, ascending, all
  bounded by the active generation;
* every data file is a clean concatenation of valid encoded records;
* the keydir equals the replay of all data files in ascending generation
  order (`build_keydir`);
* every keydir entry points at a live, non-tombstone record for its key
  (spec invariant 1). -/

structure Inv (s : WriterState) : Prop where
  hwgen : s.writer_gen = s.active_generation
  hdirkeys : s.dir = s.store.map Prod.fst
  hsorted : s.dir.Pairwise (· < ·)
  hmax : ∀ g ∈ s.dir, g ≤ s.active_generation
  hsplit : ∃ init b, s.store = init ++ [(s.active_generation, b)] ∧ s.writer_pos = b.length
  hwf : ∀ g b, storeGet s.store g = some b →
    ∃ rs, (∀ r ∈ rs, validRecord r = true) ∧ b = encodeAll rs
  hreplay : buildKeydir s.store [] = some s.keydir
  hpoint : ∀ k e, (k, e) ∈ s.keydir → e.data_file_gen ∈ s.dir ∧
    ∃ b v, storeGet s.store e.data_file_gen = some b ∧
      e.index.offset + e.index.len ≤ b.length ∧
      (b.drop e.index.offset).take e.index.len = encodeEntry k (some v) ∧
      k.length < 2 ^ 64 ∧ v.length < 2 ^ 64

/-! ## Merge (`Writer::merge`, `src/writer.rs`)

The merge loop copies, for every keydir entry, the raw bytes at the entry's
extent into a fresh data file at generation `active_generation + 1`, building
a fresh keydir; it rotates the merge file when its size exceeds the
threshold, then installs the last merge generation as active, swaps the
keydir, and deletes every previously listed generation.  Note that it never
touches `writer_gen`, `writer_pos` or `active_data_file_size`: the open
`BufWriter` still targets the old — now deleted — active file. -/

/-- `fs::remove_file` for each previous generation: fails (`none`) if a file
is already gone. -/
def deleteGens : List Nat → List Nat → Option (List Nat)
  | [], dir => some dir
  | g :: rest, dir => if g ∈ dir then deleteGens rest (dir.erase g) else none

/-- The `for (key, val) in keydir` loop of `Writer::merge`.  An empty keydir
skips the loop body entirely.  For a non-empty keydir the first iteration
lazily opens a reader for the entry's generation (`get_data_file_reader`,
whose `File::open` panics when the file is gone) and then runs
`reader.seek(SeekFrom::Start(val.index.offset)).unwrap()`
(`src/writer.rs:283`) — which re-enters `BufReaderWithPos::seek`
(`src/bufio.rs:51`, `seekModel_eq_none`) and never returns.  The copy of the
record bytes into the merge file is never reached, so any non-empty keydir
aborts the merge: both cons branches are `none`. -/
def mergeLoop : List (Bytes × KeyDirEntry) → WriterState → Nat → KeyDir → Nat → Nat →
    Option (WriterState × Nat × KeyDir)
  | [], s, amg, nkd, _, _ => some (s, amg, nkd)
  | (_, e) :: _, s, _, _, _, _ =>
    match dirFile s e.data_file_gen with
    | none => none
    | some _ => none

/-- `Writer::merge`. -/
def mergeOp (s : WriterState) : Option WriterState :=
  let amg := s.active_generation + 1
  let previous := s.dir
  let s1 := createDataFile s amg
  match mergeLoop s1.keydir s1 amg [] 0 0 with
  | none => none
  | some (s2, amgFinal, nkd) =>
    match deleteGens previous s2.dir with
    | none => none
    | some dir' =>
      some { s2 with active_generation := amgFinal, keydir := nkd, dir := dir' }

/-- The spec's keydir pointing invariant (data-model invariant 1), decidably:
the bytes at `[off, off+len)` of data file `g` decode to a record whose key is
the map key and whose value is present. -/
def entryPointsOk (s : WriterState) (k : Bytes) (e : KeyDirEntry) : Bool :=
  match dirFile s e.data_file_gen with
  | none => false
  | some bytes =>
    decide (e.index.offset + e.index.len ≤ bytes.length) &&
    match decodeEntry ((bytes.drop e.index.offset).take e.index.len) with
    | .ok k' (some _) rest => decide (k' = k) && decide (rest = [])
    | _ => false

def keydirPointsOk (s : WriterState) : Bool :=
  s.keydir.all (fun p => entryPointsOk s p.1 p.2)

/-! ## The position-tracking buffered reader (`src/bufio.rs`)

`BufReaderWithPos` wraps a `BufReader`, maintaining `pos`.  Its `Read::read`
adds the number of bytes read to `pos`.  Its `Seek::seek` implementation is

```
fn seek(&mut self, pos: SeekFrom) -> io::Result<u64> {
    let offset = self.seek(pos)?;
    self.pos = offset;
    Ok(offset)
}
```

`self.seek(pos)` resolves to this very method (there is no inherent `seek`
and `self.reader` is never mentioned), so the first statement re-enters
`seek` unconditionally.  We model the call stack with fuel: `none` means the
call has not returned within that stack depth. -/

structure BufReaderWithPos where
  pos : Nat
deriving DecidableEq, Repr

/-- `std::io::SeekFrom`. -/
inductive SeekFrom where
  | fromStart (n : Nat)
  | fromEnd (i : Int)
  | fromCurrent (i : Int)
deriving DecidableEq, Repr

/-- `<BufReaderWithPos as Seek>::seek`: the body first evaluates
`self.seek(pos)` — the same method — and only then would update `self.pos`. -/
def seekModel : Nat → BufReaderWithPos → SeekFrom → Option (Nat × BufReaderWithPos)
  | 0, _, _ => none
  | fuel + 1, r, target =>
    match seekModel fuel r target with
    | none => none
    | some (offset, r') => some (offset, { r' with pos := offset })

/-- `<BufReaderWithPos as Read>::read`: a successful read of `n` bytes adds
`n` to the logical position. -/
def readModel (r : BufReaderWithPos) (bytesRead : Nat) : Nat × BufReaderWithPos :=
  (bytesRead, ⟨r.pos + bytesRead⟩)

/-! ## Cloned engine handles (`src/lib.rs`)

`RustCask` derives `Clone`.  `keydir` and the directory are behind shared
`Arc`s, but `active_generation`, `active_data_file_size` and the reader map
are plain fields copied per clone, and `rotate_active_data_file` rebinds the
handle's `active_data_file_writer` to a brand-new `Arc`.  The two-handle
model keeps the shared pieces in `LibShared` and the per-clone pieces in
`LibHandle`; `writers` is the pool of writer objects (`Arc<Mutex<BufWriter>>`
targets) keyed by identity, each holding its target generation and stream
position. -/

structure LibHandle where
  active_generation : Nat
  active_data_file_size : Nat
  reader_gens : List Nat
  writer_id : Nat
deriving DecidableEq, Repr

structure LibShared where
  store : List (Nat × Bytes)
  dir : List Nat
  keydir : KeyDir
  writers : List (Nat × (Nat × Nat))
  next_writer_id : Nat
  max_data_file_size : Nat
deriving DecidableEq, Repr

def wGet : List (Nat × (Nat × Nat)) → Nat → Nat × Nat
  | [], _ => (0, 0)
  | (i, w) :: rest, j => if i = j then w else wGet rest j

def wSet : List (Nat × (Nat × Nat)) → Nat → Nat × Nat → List (Nat × (Nat × Nat))
  | [], i, w => [(i, w)]
  | (i', w') :: rest, i, w =>
    if i' = i then (i, w) :: rest else (i', w') :: wSet rest i w

/-- `RustCaskBuilder::open` on an empty directory, two-handle world. -/
def libOpenFresh (maxSize : Nat) : LibShared × LibHandle :=
  (⟨[(0, [])], [0], [], [(0, (0, 0))], 1, maxSize⟩, ⟨0, 0, [0], 0⟩)

/-- `RustCask::set` through one handle: write through the handle's writer
`Arc`, update the shared keydir using the handle's copy of
`active_generation`, and — when the handle's size counter reaches the
threshold — rotate: bump this handle's generation, point this handle at a
brand-new writer, and insert a reader into this handle's map only. -/
def libSet (sh : LibShared) (h : LibHandle) (k v : Bytes) : LibShared × LibHandle :=
  let enc := encodeEntry k (some v)
  let w := wGet sh.writers h.writer_id
  let content := (storeGet sh.store w.1).getD []
  let sh1 : LibShared := { sh with
    store := storeSet sh.store w.1 (overwriteAt content w.2 enc)
    writers := wSet sh.writers h.writer_id (w.1, w.2 + enc.length)
    keydir := kdSet sh.keydir k ⟨h.active_generation, ⟨w.2, enc.length⟩⟩ }
  let h1 : LibHandle :=
    { h with active_data_file_size := h.active_data_file_size + enc.length }
  if sh1.max_data_file_size ≤ h1.active_data_file_size then
    let g := h1.active_generation + 1
    let sh2 : LibShared := { sh1 with
      store := match storeGet sh1.store g with
               | some _ => sh1.store
               | none => sh1.store ++ [(g, [])]
      dir := insertGen g sh1.dir
      writers := sh1.writers ++ [(sh1.next_writer_id, (g, 0))]
      next_writer_id := sh1.next_writer_id + 1 }
    (sh2, { h1 with
      active_generation := g
      writer_id := sh1.next_writer_id
      reader_gens := h1.reader_gens ++ [g]
      active_data_file_size := 0 })
  else (sh1, h1)

/-- `RustCask::get` through one handle: shared keydir lookup — an absent key
returns `Ok(None)` — then `self.data_file_readers.get_mut(&gen).expect(...)`,
a panic (`none`) when this handle's reader map has no reader for that
generation.  When the reader exists, the next statement is
`reader.seek(SeekFrom::Start(offset))` (`src/lib.rs:195`), which re-enters
`BufReaderWithPos::seek` (`src/bufio.rs:51`, `seekModel_eq_none`) and never
returns: that branch aborts too (`none`), and no handle ever observes a
stored value. -/
def libGet (sh : LibShared) (h : LibHandle) (k : Bytes) : Option (Option Bytes) :=
  match kdGet sh.keydir k with
  | none => some none
  | some e =>
    if e.data_file_gen ∈ h.reader_gens then none
    else none

theorem leBytes_length (w n : Nat) : (leBytes w n).length = w := by
  induction w generalizing n with
  | zero => rfl
  | succ w ih => simp [leBytes, ih]

theorem leValue_leBytes (w n : Nat) : leValue (leBytes w n) = n % 256 ^ w := by
  induction w generalizing n with
  | zero => simp [leBytes, leValue, Nat.mod_one]
  | succ w ih =>
    have h : (256 : Nat) ^ (w + 1) = 256 * 256 ^ w := by ring
    simp [leBytes, leValue, ih, h, Nat.mod_mul]

theorem encodeEntry_length_none (k : Bytes) :
    (encodeEntry k none).length = 9 + k.length := by
  simp [encodeEntry, leBytes_length]; omega

theorem encodeEntry_length_some (k vv : Bytes) :
    (encodeEntry k (some vv)).length = 17 + k.length + vv.length := by
  simp [encodeEntry, leBytes_length]; omega

theorem take_len_append (a b : Bytes) (n : Nat) (h : a.length = n) :
    (a ++ b).take n = a := by
  subst h; exact List.take_left a b

theorem drop_len_append (a b : Bytes) (n : Nat) (h : a.length = n) :
    (a ++ b).drop n = b := by
  subst h; exact List.drop_left a b

/-- Decoding consumes exactly the record that `encodeEntry` produced and
leaves the rest of the stream untouched (the codec round-trip). -/
theorem decodeEntry_encodeEntry (k : Bytes) (v : Option Bytes) (rest : Bytes)
    (hk : k.length < 2 ^ 64) (hv : ∀ vv, v = some vv → vv.length < 2 ^ 64) :
    decodeEntry (encodeEntry k v ++ rest) = .ok k v rest := by
  have h256 : (256 : Nat) ^ 8 = 2 ^ 64 := by norm_num
  have hkmod : leValue (leBytes 8 k.length) = k.length := by
    rw [leValue_leBytes, h256]; exact Nat.mod_eq_of_lt hk
  have h8 : (leBytes 8 k.length).length = 8 := leBytes_length 8 k.length
  cases v with
  | none =>
    have hshape : encodeEntry k none ++ rest =
        leBytes 8 k.length ++ (k ++ (0 :: rest)) := by
      simp [encodeEntry]
    rw [hshape, decodeEntry, if_pos (by simp [h8]),
      take_len_append _ _ _ h8, drop_len_append _ _ _ h8, hkmod,
      decodeKeyBytes, if_pos (by simp),
      take_len_append _ _ _ rfl, drop_len_append _ _ _ rfl]
    rfl
  | some vv =>
    have hvv : vv.length < 2 ^ 64 := hv vv rfl
    have hvmod : leValue (leBytes 8 vv.length) = vv.length := by
      rw [leValue_leBytes, h256]; exact Nat.mod_eq_of_lt hvv
    have h8v : (leBytes 8 vv.length).length = 8 := leBytes_length 8 vv.length
    have hshape : encodeEntry k (some vv) ++ rest =
        leBytes 8 k.length ++ (k ++ (1 :: (leBytes 8 vv.length ++ (vv ++ rest)))) := by
      simp [encodeEntry]
    rw [hshape, decodeEntry, if_pos (by simp [h8]),
      take_len_append _ _ _ h8, drop_len_append _ _ _ h8, hkmod,
      decodeKeyBytes, if_pos (by simp),
      take_len_append _ _ _ rfl, drop_len_append _ _ _ rfl]
    show decodeValueBytes k (leBytes 8 vv.length ++ (vv ++ rest)) = _
    rw [decodeValueBytes, if_pos (by simp [h8v]),
      take_len_append _ _ _ h8v, drop_len_append _ _ _ h8v, hvmod,
      if_pos (by simp),
      take_len_append _ _ _ rfl, drop_len_append _ _ _ rfl]

theorem decodeValueBytes_rest_lt {key r3 : Bytes} {k : Bytes} {v : Option Bytes} {r : Bytes}
    (h : decodeValueBytes key r3 = .ok k v r) : r.length < r3.length := by
  rw [decodeValueBytes] at h
  by_cases h1 : 8 ≤ r3.length
  · rw [if_pos h1] at h
    by_cases h2 : leValue (r3.take 8) ≤ (r3.drop 8).length
    · rw [if_pos h2, DecodeResult.ok.injEq] at h
      obtain ⟨-, -, hr⟩ := h
      rw [← hr]
      simp only [List.length_drop]
      omega
    · rw [if_neg h2] at h
      cases h
  · rw [if_neg h1] at h
    cases h

theorem decodeTag_rest_lt {key r2 : Bytes} {k : Bytes} {v : Option Bytes} {r : Bytes}
    (h : decodeTag key r2 = .ok k v r) : r.length < r2.length := by
  cases r2 with
  | nil => cases h
  | cons t r3 =>
    rw [decodeTag] at h
    by_cases h0 : t = 0
    · rw [if_pos h0, DecodeResult.ok.injEq] at h
      obtain ⟨-, -, hr⟩ := h
      rw [← hr]
      simp
    · rw [if_neg h0] at h
      by_cases h1 : t = 1
      · rw [if_pos h1] at h
        have := decodeValueBytes_rest_lt h
        simp only [List.length_cons]
        omega
      · rw [if_neg h1] at h
        cases h

theorem decodeEntry_rest_lt {input : Bytes} {k : Bytes} {v : Option Bytes} {r : Bytes}
    (h : decodeEntry input = .ok k v r) : r.length < input.length := by
  rw [decodeEntry] at h
  by_cases h8 : 8 ≤ input.length
  · rw [if_pos h8, decodeKeyBytes] at h
    by_cases hkl : leValue (input.take 8) ≤ (input.drop 8).length
    · rw [if_pos hkl] at h
      have := decodeTag_rest_lt h
      simp only [List.length_drop] at this ⊢
      omega
    · rw [if_neg hkl] at h
      cases h
  · rw [if_neg h8] at h
    cases h

theorem encodeRecord_length_pos (r : Record) : 0 < (encodeRecord r).length := by
  obtain ⟨k, v⟩ := r
  cases v with
  | none => rw [encodeRecord, encodeEntry_length_none]; omega
  | some vv => rw [encodeRecord, encodeEntry_length_some]; omega

theorem decodeEntry_encodeRecord (r : Record) (rest : Bytes)
    (hr : validRecord r = true) :
    decodeEntry (encodeRecord r ++ rest) = .ok r.1 r.2 rest := by
  rw [validRecord, Bool.and_eq_true, decide_eq_true_eq] at hr
  refine decodeEntry_encodeEntry r.1 r.2 rest hr.1 ?_
  intro vv hvv
  have := hr.2
  rw [hvv] at this
  simpa using this

/-- On a file that is a clean concatenation of valid records, the iterator
yields exactly those records with their extents. -/
theorem fileRecordsAux_encodeAll (rs : List Record) :
    ∀ off fuel, (encodeAll rs).length < fuel →
      (∀ r ∈ rs, validRecord r = true) →
      fileRecordsAux fuel (encodeAll rs) off = some (withIndices rs off) := by
  induction rs with
  | nil =>
    intro off fuel hfuel _
    match fuel, hfuel with
    | fuel + 1, _ => rw [fileRecordsAux]; rfl
  | cons r rs ih =>
    intro off fuel hfuel hval
    have hlen : (encodeAll (r :: rs)).length =
        (encodeRecord r).length + (encodeAll rs).length := by
      rw [encodeAll, List.length_append]
    match fuel, hfuel with
    | fuel + 1, hfuel =>
      have hpos := encodeRecord_length_pos r
      have hrec : (encodeAll rs).length < fuel := by omega
      have hdec : decodeEntry (encodeAll (r :: rs)) = .ok r.1 r.2 (encodeAll rs) := by
        rw [encodeAll]
        exact decodeEntry_encodeRecord r _ (hval r (by simp))
      have hconsumed : (encodeAll (r :: rs)).length - (encodeAll rs).length =
          (encodeRecord r).length := by omega
      rw [fileRecordsAux, hdec]
      dsimp only
      rw [hconsumed, ih _ fuel hrec (fun x hx => hval x (by simp [hx]))]
      rfl

theorem fileRecords_encodeAll (rs : List Record)
    (hval : ∀ r ∈ rs, validRecord r = true) :
    fileRecords (encodeAll rs) = some (withIndices rs 0) :=
  fileRecordsAux_encodeAll rs 0 _ (Nat.lt_succ_self _) hval

theorem openModel_empty (maxSize : Nat) (sync : Bool) :
    openModel [] [] maxSize sync = some (freshState maxSize sync) := rfl

/-! ## Basic lemmas about the map and file-system helpers -/

theorem storeGet_append (xs ys : List (Nat × Bytes)) (g : Nat) :
    storeGet (xs ++ ys) g =
      match storeGet xs g with
      | some b => some b
      | none => storeGet ys g := by
  induction xs with
  | nil => rfl
  | cons p xs ih =>
    obtain ⟨g', b'⟩ := p
    by_cases h : g' = g
    · simp [storeGet, h]
    · simp [storeGet, h, ih]

theorem storeGet_append_not_mem {init : List (Nat × Bytes)} {g : Nat}
    (h : g ∉ init.map Prod.fst) (ys : List (Nat × Bytes)) :
    storeGet (init ++ ys) g = storeGet ys g := by
  induction init with
  | nil => rfl
  | cons p init ih =>
    obtain ⟨g', b'⟩ := p
    have hne : g' ≠ g := by
      intro hc
      exact h (by simp [hc])
    simp only [List.cons_append, storeGet, if_neg hne]
    exact ih (by
      intro hc
      exact h (by simp [hc]))

theorem storeSet_append_not_mem {init : List (Nat × Bytes)} {g : Nat}
    (h : g ∉ init.map Prod.fst) (b : Bytes) (rest : List (Nat × Bytes)) (nb : Bytes) :
    storeSet (init ++ (g, b) :: rest) g nb = init ++ (g, nb) :: rest := by
  induction init with
  | nil => simp [storeSet]
  | cons p init ih =>
    obtain ⟨g', b'⟩ := p
    have hne : g' ≠ g := by
      intro hc
      exact h (by simp [hc])
    simp only [List.cons_append, storeSet, if_neg hne, List.cons.injEq, true_and]
    exact ih (by
      intro hc
      exact h (by simp [hc]))

theorem storeGet_some_mem_fst {st : List (Nat × Bytes)} {g : Nat} {b : Bytes}
    (h : storeGet st g = some b) : g ∈ st.map Prod.fst := by
  induction st with
  | nil => cases h
  | cons p st ih =>
    obtain ⟨g', b'⟩ := p
    by_cases hg : g' = g
    · simp [hg]
    · rw [storeGet, if_neg hg] at h
      simp [ih h]

theorem storeGet_none_of_not_mem {st : List (Nat × Bytes)} {g : Nat}
    (h : g ∉ st.map Prod.fst) : storeGet st g = none := by
  induction st with
  | nil => rfl
  | cons p st ih =>
    obtain ⟨g', b'⟩ := p
    have hne : g' ≠ g := by
      intro hc
      exact h (by simp [hc])
    rw [storeGet, if_neg hne]
    exact ih (by
      intro hc
      exact h (by simp [hc]))

theorem storeGet_storeSet_other {st : List (Nat × Bytes)} {g g' : Nat} (h : g' ≠ g)
    (b : Bytes) : storeGet (storeSet st g b) g' = storeGet st g' := by
  induction st with
  | nil =>
    have hne : ¬ (g = g') := fun hc => h hc.symm
    simp [storeSet, storeGet, hne]
  | cons p st ih =>
    obtain ⟨g'', b''⟩ := p
    by_cases hg : g'' = g
    · subst hg
      rw [storeSet, if_pos rfl, storeGet, if_neg (fun hc => h hc.symm),
        storeGet, if_neg (fun hc => h hc.symm)]
    · by_cases hg' : g'' = g'
      · rw [storeSet, if_neg hg, storeGet, if_pos hg', storeGet, if_pos hg']
      · rw [storeSet, if_neg hg, storeGet, if_neg hg', storeGet, if_neg hg', ih]

theorem insertGen_of_forall_lt {l : List Nat} {g : Nat} (h : ∀ x ∈ l, x < g) :
    insertGen g l = l ++ [g] := by
  induction l with
  | nil => rfl
  | cons x xs ih =>
    have hx : x < g := h x (by simp)
    rw [insertGen, if_neg (by omega), if_neg (by omega), ih (fun y hy => h y (by simp [hy]))]
    rfl

theorem overwriteAt_append_self (b enc : Bytes) :
    overwriteAt b b.length enc = b ++ enc := by
  rw [overwriteAt, List.take_length, List.drop_eq_nil_of_le (by omega), List.append_nil]

theorem kdGet_kdRemoveKey_self (kd : KeyDir) (k : Bytes) :
    kdGet (kdRemoveKey kd k) k = none := by
  induction kd with
  | nil => rfl
  | cons p kd ih =>
    obtain ⟨k', e'⟩ := p
    by_cases h : k' = k
    · simpa [kdRemoveKey, h] using ih
    · simpa [kdRemoveKey, kdGet, h] using ih

theorem kdRemoveKey_cons_eq (k'' : Bytes) (e'' : KeyDirEntry) (kd : KeyDir) {k : Bytes}
    (h : k'' = k) : kdRemoveKey ((k'', e'') :: kd) k = kdRemoveKey kd k := by
  simp [kdRemoveKey, h]

theorem kdRemoveKey_cons_ne (k'' : Bytes) (e'' : KeyDirEntry) (kd : KeyDir) {k : Bytes}
    (h : k'' ≠ k) : kdRemoveKey ((k'', e'') :: kd) k = (k'', e'') :: kdRemoveKey kd k := by
  simp [kdRemoveKey, h]

theorem kdGet_kdRemoveKey_other (kd : KeyDir) {k k' : Bytes} (h : k' ≠ k) :
    kdGet (kdRemoveKey kd k) k' = kdGet kd k' := by
  induction kd with
  | nil => rfl
  | cons p kd ih =>
    obtain ⟨k'', e''⟩ := p
    by_cases hk : k'' = k
    · rw [kdRemoveKey_cons_eq k'' e'' kd hk, ih]
      subst hk
      have hne : ¬ (k'' = k') := fun hc => h hc.symm
      rw [kdGet, if_neg hne]
    · rw [kdRemoveKey_cons_ne k'' e'' kd hk]
      by_cases hk' : k'' = k'
      · rw [kdGet, if_pos hk', kdGet, if_pos hk']
      · rw [kdGet, if_neg hk', kdGet, if_neg hk', ih]

theorem kdGet_kdSet_self (kd : KeyDir) (k : Bytes) (e : KeyDirEntry) :
    kdGet (kdSet kd k e) k = some e := by
  simp [kdSet, kdGet]

theorem kdGet_kdSet_other (kd : KeyDir) {k k' : Bytes} (h : k' ≠ k) (e : KeyDirEntry) :
    kdGet (kdSet kd k e) k' = kdGet kd k' := by
  rw [kdSet, kdGet, if_neg (fun hc => h hc.symm)]
  exact kdGet_kdRemoveKey_other kd h

theorem mem_kdRemoveKey {kd : KeyDir} {k : Bytes} {p : Bytes × KeyDirEntry}
    (h : p ∈ kdRemoveKey kd k) : p ∈ kd ∧ p.1 ≠ k := by
  rw [kdRemoveKey, List.mem_filter] at h
  exact ⟨h.1, by simpa using h.2⟩

theorem mem_kdSet {kd : KeyDir} {k : Bytes} {e : KeyDirEntry} {p : Bytes × KeyDirEntry}
    (h : p ∈ kdSet kd k e) : p = (k, e) ∨ (p ∈ kd ∧ p.1 ≠ k) := by
  rw [kdSet, List.mem_cons] at h
  cases h with
  | inl h => exact Or.inl h
  | inr h => exact Or.inr (mem_kdRemoveKey h)

theorem slice_append_of_le {a : Bytes} (c : Bytes) {o l : Nat} (h : o + l ≤ a.length) :
    ((a ++ c).drop o).take l = (a.drop o).take l := by
  rw [List.drop_append_of_le_length (by omega),
    List.take_append_of_le_length (by simp; omega)]

/-! ## Explicit descriptions of the write path -/

/-- `write_to_active_data_file` under the writer invariants (handle on the
active file, cursor at the end of the file, generations bounded by the active
one): the record is appended at the end of the active file, the recorded
offset is the file's previous length, and the state either rotates or not
according to the size counter. -/
theorem writeToActiveDataFile_eq (s : WriterState) (enc : Bytes)
    (init : List (Nat × Bytes)) (b : Bytes)
    (hw : s.writer_gen = s.active_generation)
    (hsplit : s.store = init ++ [(s.active_generation, b)])
    (hnotin : s.active_generation ∉ init.map Prod.fst)
    (hbound : ∀ g ∈ s.store.map Prod.fst, g ≤ s.active_generation)
    (hpos : s.writer_pos = b.length) :
    writeToActiveDataFile s enc =
      ((⟨b.length, enc.length⟩, s.active_generation),
       if s.max_data_file_size ≤ s.active_data_file_size + enc.length then
         { s with
             store := (init ++ [(s.active_generation, b ++ enc)]) ++
               [(s.active_generation + 1, [])]
             dir := insertGen (s.active_generation + 1) s.dir
             active_generation := s.active_generation + 1
             writer_gen := s.active_generation + 1
             writer_pos := 0
             active_data_file_size := 0 }
       else
         { s with
             store := init ++ [(s.active_generation, b ++ enc)]
             writer_pos := b.length + enc.length
             active_data_file_size := s.active_data_file_size + enc.length }) := by
  have hget : storeGet s.store s.writer_gen = some b := by
    rw [hw, hsplit, storeGet_append_not_mem hnotin]
    simp [storeGet]
  have hset : storeSet s.store s.writer_gen (overwriteAt b b.length enc) =
      init ++ [(s.active_generation, b ++ enc)] := by
    rw [overwriteAt_append_self, hw, hsplit]
    exact storeSet_append_not_mem hnotin b [] (b ++ enc)
  have hnone : storeGet (init ++ [(s.active_generation, b ++ enc)])
      (s.active_generation + 1) = none := by
    apply storeGet_none_of_not_mem
    intro hc
    have : s.active_generation + 1 ∈ s.store.map Prod.fst := by
      rw [hsplit]
      simpa using hc
    have := hbound _ this
    omega
  rw [writeToActiveDataFile]
  simp only [hget, Option.getD_some, hpos, hset]
  split_ifs with hrot
  rw [rotateActiveDataFile, createDataFile]
  simp only [hset, hnone]
  rfl

/-! ## More structural lemmas -/

theorem encodeAll_append (xs ys : List Record) :
    encodeAll (xs ++ ys) = encodeAll xs ++ encodeAll ys := by
  induction xs with
  | nil => rfl
  | cons r xs ih => simp [encodeAll, ih]

theorem withIndices_append (xs ys : List Record) (off : Nat) :
    withIndices (xs ++ ys) off =
      withIndices xs off ++ withIndices ys (off + (encodeAll xs).length) := by
  induction xs generalizing off with
  | nil => simp [withIndices, encodeAll]
  | cons r xs ih =>
    rw [List.cons_append, withIndices, ih, withIndices, encodeAll, List.length_append,
      Nat.add_assoc, List.cons_append]

theorem buildKeydir_append (xs ys : List (Nat × Bytes)) (kd : KeyDir) :
    buildKeydir (xs ++ ys) kd =
      match buildKeydir xs kd with
      | none => none
      | some kd' => buildKeydir ys kd' := by
  induction xs generalizing kd with
  | nil => rfl
  | cons p xs ih =>
    obtain ⟨g, bytes⟩ := p
    rw [List.cons_append, buildKeydir, buildKeydir]
    cases populateKeydir bytes g kd with
    | none => rfl
    | some kd' => exact ih kd'

theorem populateKeydir_encodeAll (rs : List Record) (g : Nat) (kd : KeyDir)
    (hval : ∀ r ∈ rs, validRecord r = true) :
    populateKeydir (encodeAll rs) g kd =
      some ((withIndices rs 0).foldl (replayStep g) kd) := by
  rw [populateKeydir, fileRecords_encodeAll rs hval]
  rfl

theorem storeGet_snoc (init : List (Nat × Bytes)) (a : Nat) (x : Bytes) (g : Nat)
    (ha : a ∉ init.map Prod.fst) :
    storeGet (init ++ [(a, x)]) g = if g = a then some x else storeGet init g := by
  rw [storeGet_append]
  by_cases hg : g = a
  · subst hg
    rw [storeGet_none_of_not_mem ha, if_pos rfl, storeGet, if_pos rfl]
  · cases h : storeGet init g with
    | some b => rw [if_neg hg]
    | none =>
      rw [if_neg hg, storeGet, if_neg (fun hc => hg hc.symm)]
      rfl

theorem mem_insertGen_of_mem {l : List Nat} {x : Nat} (h : x ∈ l) (g : Nat) :
    x ∈ insertGen g l := by
  induction l with
  | nil => cases h
  | cons y ys ih =>
    rw [insertGen]
    rcases List.mem_cons.mp h with h1 | h2
    · subst h1
      split_ifs <;> simp
    · split_ifs <;> simp [ih h2, h2]

theorem Inv_freshState (maxSize : Nat) (sync : Bool) : Inv (freshState maxSize sync) := by
  refine ⟨rfl, rfl, ?_, ?_, ⟨[], [], rfl, rfl⟩, ?_, ?_, ?_⟩
  · exact List.pairwise_singleton _ _
  · intro g hg
    simp only [freshState, List.mem_singleton] at hg
    omega
  · intro g b hb
    simp only [freshState] at hb
    have hb' : b = [] := by
      by_cases h : (0 : Nat) = g
      · rw [storeGet, if_pos h] at hb
        exact (Option.some.inj hb).symm
      · rw [storeGet, if_neg h] at hb
        cases hb
    exact ⟨[], by simp, by rw [hb']; rfl⟩
  · rfl
  · intro k e he
    cases he

theorem buildKeydir_nil (kd : KeyDir) : buildKeydir [] kd = some kd := rfl

theorem buildKeydir_cons_some {g : Nat} {bytes : Bytes} {files : List (Nat × Bytes)}
    {kd kd' : KeyDir} (h : populateKeydir bytes g kd = some kd') :
    buildKeydir ((g, bytes) :: files) kd = buildKeydir files kd' := by
  rw [buildKeydir, h]

theorem populateKeydir_nil (g : Nat) (kd : KeyDir) : populateKeydir [] g kd = some kd := rfl

theorem encodeAll_snoc (rs : List Record) (r : Record) :
    encodeAll (rs ++ [r]) = encodeAll rs ++ encodeRecord r := by
  rw [encodeAll_append, encodeAll, encodeAll, List.append_nil]

/-- Appending one encoded record to the last data file turns the replayed
keydir into `replayStep` of the previous one. -/
theorem replay_snoc (init : List (Nat × Bytes)) (act : Nat) (rs : List Record)
    (r : Record) (kd : KeyDir)
    (hrep : buildKeydir (init ++ [(act, encodeAll rs)]) [] = some kd)
    (hval : ∀ x ∈ rs, validRecord x = true) (hvr : validRecord r = true) :
    buildKeydir (init ++ [(act, encodeAll rs ++ encodeRecord r)]) [] =
      some (replayStep act kd
        (r, ⟨(encodeAll rs).length, (encodeRecord r).length⟩)) := by
  rw [buildKeydir_append] at hrep ⊢
  cases hB : buildKeydir init [] with
  | none => rw [hB] at hrep; cases hrep
  | some kd0 =>
    rw [hB] at hrep
    dsimp only at hrep ⊢
    rw [buildKeydir_cons_some (populateKeydir_encodeAll rs act kd0 hval),
      buildKeydir_nil] at hrep
    have hkd : (withIndices rs 0).foldl (replayStep act) kd0 = kd := Option.some.inj hrep
    have hsnoc : encodeAll rs ++ encodeRecord r = encodeAll (rs ++ [r]) :=
      (encodeAll_snoc rs r).symm
    rw [hsnoc, buildKeydir_cons_some (populateKeydir_encodeAll (rs ++ [r]) act kd0 ?hv),
      buildKeydir_nil]
    case hv =>
      intro x hx
      rcases List.mem_append.mp hx with h1 | h2
      · exact hval x h1
      · rw [List.mem_singleton.mp h2]; exact hvr
    rw [withIndices_append, List.foldl_append, hkd, withIndices, withIndices,
      List.foldl_cons, List.foldl_nil, Nat.zero_add]

theorem Inv.active_mem {s : WriterState} (hI : Inv s) : s.active_generation ∈ s.dir := by
  obtain ⟨init, b, hsp, -⟩ := hI.hsplit
  rw [hI.hdirkeys, hsp]
  simp

theorem Inv.decomp {s : WriterState} (hI : Inv s) :
    ∃ init b, s.store = init ++ [(s.active_generation, b)] ∧ s.writer_pos = b.length ∧
      s.active_generation ∉ init.map Prod.fst ∧
      (∀ g ∈ init.map Prod.fst, g < s.active_generation) ∧
      (∀ g ∈ s.store.map Prod.fst, g ≤ s.active_generation) := by
  obtain ⟨init, b, hsp, hpos⟩ := hI.hsplit
  have hmap : s.store.map Prod.fst = init.map Prod.fst ++ [s.active_generation] := by
    rw [hsp]; simp
  have hbound : ∀ g ∈ s.store.map Prod.fst, g ≤ s.active_generation := by
    intro g hg
    exact hI.hmax g (by rw [hI.hdirkeys]; exact hg)
  have hsorted := hI.hsorted
  rw [hI.hdirkeys, hmap] at hsorted
  have hlt : ∀ g ∈ init.map Prod.fst, g < s.active_generation := by
    intro g hg
    exact (List.pairwise_append.mp hsorted).2.2 g hg _ (by simp)
  exact ⟨init, b, hsp, hpos, fun hc => Nat.lt_irrefl _ (hlt _ hc), hlt, hbound⟩

/-- Entry facts survive when every file content is only extended. -/
theorem point_facts_ext {s : WriterState} (hI : Inv s) {st' : List (Nat × Bytes)}
    (hext : ∀ g b0, storeGet s.store g = some b0 →
      ∃ ext, storeGet st' g = some (b0 ++ ext))
    {k : Bytes} {e : KeyDirEntry} (hmem : (k, e) ∈ s.keydir) :
    ∃ b1 v, storeGet st' e.data_file_gen = some b1 ∧
      e.index.offset + e.index.len ≤ b1.length ∧
      (b1.drop e.index.offset).take e.index.len = encodeEntry k (some v) ∧
      k.length < 2 ^ 64 ∧ v.length < 2 ^ 64 := by
  obtain ⟨-, b0, v, hg0, hb0len, hslice, hkl, hvl⟩ := hI.hpoint k e hmem
  obtain ⟨ext, hg1⟩ := hext _ _ hg0
  refine ⟨b0 ++ ext, v, hg1, ?_, ?_, hkl, hvl⟩
  · rw [List.length_append]
    omega
  · rw [slice_append_of_le ext hb0len, hslice]

/-- The keydir pointing invariant carries over to the successor state: old
entries because files only grow, and the freshly replayed record because its
bytes sit at the recorded extent at the end of the active file. -/
theorem point_facts_step {s : WriterState} (hI : Inv s) {st' : List (Nat × Bytes)}
    {dir' : List Nat} {r : Record} (hvr : validRecord r = true)
    (hext : ∀ g b0, storeGet s.store g = some b0 →
      ∃ ext, storeGet st' g = some (b0 ++ ext))
    (hdsub : ∀ g ∈ s.dir, g ∈ dir')
    (off : Nat) {b : Bytes} (hoff : off = b.length)
    (hbact : storeGet st' s.active_generation = some (b ++ encodeRecord r)) :
    ∀ k e, (k, e) ∈ replayStep s.active_generation s.keydir
        (r, ⟨off, (encodeRecord r).length⟩) →
      e.data_file_gen ∈ dir' ∧
      ∃ b1 v, storeGet st' e.data_file_gen = some b1 ∧
        e.index.offset + e.index.len ≤ b1.length ∧
        (b1.drop e.index.offset).take e.index.len = encodeEntry k (some v) ∧
        k.length < 2 ^ 64 ∧ v.length < 2 ^ 64 := by
  intro k e hmem
  rw [replayStep] at hmem
  obtain ⟨kr, vr⟩ := r
  cases vr with
  | none =>
    obtain ⟨hold, -⟩ := mem_kdRemoveKey hmem
    exact ⟨hdsub _ (hI.hpoint k e hold).1, point_facts_ext hI hext hold⟩
  | some vv =>
    rcases mem_kdSet hmem with heq | ⟨hold, -⟩
    · injection heq with hk he
      subst hk
      subst he
      subst hoff
      refine ⟨hdsub _ hI.active_mem, b ++ encodeRecord (k, some vv), vv, hbact, ?_, ?_, ?_, ?_⟩
      · simp
      · rw [drop_len_append _ _ _ rfl, List.take_length]
        rfl
      · rw [validRecord, Bool.and_eq_true, decide_eq_true_eq] at hvr
        exact hvr.1
      · rw [validRecord, Bool.and_eq_true] at hvr
        simpa using hvr.2
    · exact ⟨hdsub _ (hI.hpoint k e hold).1, point_facts_ext hI hext hold⟩

/-- The master description of one mutation write: appending the encoded record
`r` through `write_to_active_data_file` (with the rotation it may trigger)
returns the extent at the previous end of the active file, grows files only by
appending, and — once the keydir is updated the way `set`/`remove` do, namely
by `replayStep` of the written record — preserves the writer invariant. -/
theorem writeRecord_spec (s : WriterState) (r : Record) (hI : Inv s)
    (hvr : validRecord r = true) :
    (writeToActiveDataFile s (encodeRecord r)).1 =
      (⟨s.writer_pos, (encodeRecord r).length⟩, s.active_generation) ∧
    (writeToActiveDataFile s (encodeRecord r)).2.keydir = s.keydir ∧
    (∀ g ∈ s.dir, g ∈ (writeToActiveDataFile s (encodeRecord r)).2.dir) ∧
    (∀ g b0, storeGet s.store g = some b0 →
      ∃ ext, storeGet (writeToActiveDataFile s (encodeRecord r)).2.store g =
        some (b0 ++ ext)) ∧
    (∃ b, storeGet s.store s.active_generation = some b ∧ s.writer_pos = b.length ∧
      storeGet (writeToActiveDataFile s (encodeRecord r)).2.store s.active_generation =
        some (b ++ encodeRecord r)) ∧
    Inv { (writeToActiveDataFile s (encodeRecord r)).2 with
          keydir := replayStep s.active_generation s.keydir
            (r, ⟨s.writer_pos, (encodeRecord r).length⟩) } := by
  obtain ⟨init, b, hsp, hpos, hnotin, hlt, hbound⟩ := hI.decomp
  rw [hpos]
  have hW := writeToActiveDataFile_eq s (encodeRecord r) init b hI.hwgen hsp hnotin hbound hpos
  have hgetb : storeGet s.store s.active_generation = some b := by
    rw [hsp, storeGet_snoc init _ b _ hnotin, if_pos rfl]
  obtain ⟨rs, hrsval, hrsb⟩ := hI.hwf _ b hgetb
  have hrep0 : buildKeydir (init ++ [(s.active_generation, encodeAll rs)]) [] =
      some s.keydir := by
    rw [← hrsb, ← hsp]
    exact hI.hreplay
  have hrepstep' := replay_snoc init s.active_generation rs r s.keydir hrep0 hrsval hvr
  have hrepstep : buildKeydir (init ++ [(s.active_generation, b ++ encodeRecord r)]) [] =
      some (replayStep s.active_generation s.keydir
        (r, ⟨b.length, (encodeRecord r).length⟩)) := by
    rw [← hrsb] at hrepstep'
    exact hrepstep'
  have hrsval' : ∀ x ∈ rs ++ [r], validRecord x = true := by
    intro x hx
    rcases List.mem_append.mp hx with h1 | h2
    · exact hrsval x h1
    · rw [List.mem_singleton.mp h2]
      exact hvr
  have hbact' : b ++ encodeRecord r = encodeAll (rs ++ [r]) := by
    rw [encodeAll_snoc, ← hrsb]
  by_cases hrot : s.max_data_file_size ≤ s.active_data_file_size + (encodeRecord r).length
  · -- the write reaches the threshold: rotation follows
    rw [hW, if_pos hrot]
    dsimp only
    have hnotin' : s.active_generation + 1 ∉
        (init ++ [(s.active_generation, b ++ encodeRecord r)]).map Prod.fst := by
      intro hc
      simp only [List.map_append, List.map_cons, List.map_nil, List.mem_append,
        List.mem_singleton] at hc
      rcases hc with hc | hc
      · have := hlt _ hc
        omega
      · omega
    have hext : ∀ g b0, storeGet s.store g = some b0 →
        ∃ ext, storeGet ((init ++ [(s.active_generation, b ++ encodeRecord r)]) ++
          [(s.active_generation + 1, [])]) g = some (b0 ++ ext) := by
      intro g b0 hg0
      have hgle : g ≤ s.active_generation := hbound g (storeGet_some_mem_fst hg0)
      rw [storeGet_snoc _ _ _ _ hnotin', if_neg (by omega)]
      by_cases hga : g = s.active_generation
      · subst hga
        rw [storeGet_snoc init _ _ _ hnotin, if_pos rfl]
        rw [hsp, storeGet_snoc init _ b _ hnotin, if_pos rfl] at hg0
        have hb0 : b = b0 := Option.some.inj hg0
        exact ⟨encodeRecord r, by rw [← hb0]⟩
      · rw [storeGet_snoc init _ _ _ hnotin, if_neg hga]
        rw [hsp, storeGet_snoc init _ b _ hnotin, if_neg hga] at hg0
        exact ⟨[], by rw [hg0, List.append_nil]⟩
    have hbget : storeGet ((init ++ [(s.active_generation, b ++ encodeRecord r)]) ++
        [(s.active_generation + 1, [])]) s.active_generation =
        some (b ++ encodeRecord r) := by
      rw [storeGet_snoc _ _ _ _ hnotin', if_neg (by omega),
        storeGet_snoc init _ _ _ hnotin, if_pos rfl]
    have hdir' : insertGen (s.active_generation + 1) s.dir =
        s.dir ++ [s.active_generation + 1] :=
      insertGen_of_forall_lt (fun x hx => by
        have := hI.hmax x hx
        omega)
    refine ⟨rfl, rfl, fun g hg => mem_insertGen_of_mem hg _, hext,
      ⟨b, hgetb, rfl, hbget⟩, ?_, ?_, ?_, ?_, ?_, ?_, ?_, ?_⟩
    · rfl
    · rw [hdir', hI.hdirkeys, hsp]
      simp
    · rw [hdir']
      refine List.pairwise_append.mpr ⟨hI.hsorted, List.pairwise_singleton _ _, ?_⟩
      intro x hx y hy
      rw [List.mem_singleton.mp hy]
      have := hI.hmax x hx
      omega
    · intro g hg
      dsimp only at hg ⊢
      rw [hdir', List.mem_append] at hg
      rcases hg with hg | hg
      · have := hI.hmax g hg
        omega
      · rw [List.mem_singleton.mp hg]
    · exact ⟨init ++ [(s.active_generation, b ++ encodeRecord r)], [], rfl, rfl⟩
    · intro g bb hbb
      rw [storeGet_snoc _ _ _ _ hnotin'] at hbb
      split_ifs at hbb with hg1
      · exact ⟨[], by simp, (Option.some.inj hbb).symm⟩
      · rw [storeGet_snoc init _ _ _ hnotin] at hbb
        split_ifs at hbb with hg2
        · exact ⟨rs ++ [r], hrsval', by rw [← hbact']; exact (Option.some.inj hbb).symm⟩
        · exact hI.hwf g bb (by
            rw [hsp, storeGet_snoc init _ b _ hnotin, if_neg hg2]
            exact hbb)
    · rw [buildKeydir_append, hrepstep]
      dsimp only
      rw [buildKeydir_cons_some (populateKeydir_nil _ _), buildKeydir_nil]
    · exact point_facts_step hI hvr hext (fun g hg => mem_insertGen_of_mem hg _)
        b.length rfl hbget
  · -- no rotation
    rw [hW, if_neg hrot]
    dsimp only
    have hext : ∀ g b0, storeGet s.store g = some b0 →
        ∃ ext, storeGet (init ++ [(s.active_generation, b ++ encodeRecord r)]) g =
          some (b0 ++ ext) := by
      intro g b0 hg0
      by_cases hga : g = s.active_generation
      · subst hga
        rw [storeGet_snoc init _ _ _ hnotin, if_pos rfl]
        rw [hsp, storeGet_snoc init _ b _ hnotin, if_pos rfl] at hg0
        have hb0 : b = b0 := Option.some.inj hg0
        exact ⟨encodeRecord r, by rw [← hb0]⟩
      · rw [storeGet_snoc init _ _ _ hnotin, if_neg hga]
        rw [hsp, storeGet_snoc init _ b _ hnotin, if_neg hga] at hg0
        exact ⟨[], by rw [hg0, List.append_nil]⟩
    have hbget : storeGet (init ++ [(s.active_generation, b ++ encodeRecord r)])
        s.active_generation = some (b ++ encodeRecord r) := by
      rw [storeGet_snoc init _ _ _ hnotin, if_pos rfl]
    refine ⟨rfl, rfl, fun g hg => hg, hext, ⟨b, hgetb, rfl, hbget⟩,
      hI.hwgen, ?_, hI.hsorted, hI.hmax, ?_, ?_, hrepstep, ?_⟩
    · rw [hI.hdirkeys, hsp]
      simp
    · refine ⟨init, b ++ encodeRecord r, rfl, ?_⟩
      rw [List.length_append]
    · intro g bb hbb
      rw [storeGet_snoc init _ _ _ hnotin] at hbb
      split_ifs at hbb with hg2
      · exact ⟨rs ++ [r], hrsval', by rw [← hbact']; exact (Option.some.inj hbb).symm⟩
      · exact hI.hwf g bb (by
          rw [hsp, storeGet_snoc init _ b _ hnotin, if_neg hg2]
          exact hbb)
    · exact point_facts_step hI hvr hext (fun g hg => hg) b.length rfl hbget

/-! ## Specifications of `set` and `remove` -/

theorem validRecord_some {k v : Bytes} (hk : k.length < 2 ^ 64) (hv : v.length < 2 ^ 64) :
    validRecord (k, some v) = true := by
  rw [validRecord]
  dsimp only
  rw [Bool.and_eq_true, decide_eq_true_eq, decide_eq_true_eq]
  exact ⟨hk, hv⟩

theorem validRecord_none {k : Bytes} (hk : k.length < 2 ^ 64) :
    validRecord (k, none) = true := by
  rw [validRecord]
  dsimp only
  rw [Bool.and_eq_true, decide_eq_true_eq]
  exact ⟨hk, rfl⟩

/-- `set` under the invariant: the invariant is preserved, the keydir gains
exactly the entry for the written record — generation = the active generation
at the time of the write, offset = the previous end of the active file — and
the active file is extended by the encoded record with no other byte of any
file modified. -/
theorem setOp_spec (s : WriterState) (k v : Bytes) (hI : Inv s)
    (hk : k.length < 2 ^ 64) (hv : v.length < 2 ^ 64) :
    Inv (setOp s k v) ∧
    (setOp s k v).keydir = kdSet s.keydir k
      ⟨s.active_generation, ⟨s.writer_pos, (encodeEntry k (some v)).length⟩⟩ ∧
    (∀ g ∈ s.dir, g ∈ (setOp s k v).dir) ∧
    (∀ g b0, storeGet s.store g = some b0 →
      ∃ ext, storeGet (setOp s k v).store g = some (b0 ++ ext)) ∧
    (∃ b, storeGet s.store s.active_generation = some b ∧ s.writer_pos = b.length ∧
      storeGet (setOp s k v).store s.active_generation =
        some (b ++ encodeEntry k (some v))) := by
  obtain ⟨h1, h2, h3, h4, h5, h6⟩ :=
    writeRecord_spec s (k, some v) hI (validRecord_some hk hv)
  have hset : setOp s k v =
      { (writeToActiveDataFile s (encodeRecord (k, some v))).2 with
        keydir := replayStep s.active_generation s.keydir
          ((k, some v), ⟨s.writer_pos, (encodeRecord (k, some v)).length⟩) } := by
    rw [setOp]
    have hr1 : (writeToActiveDataFile s (encodeEntry k (some v))).1 =
        (⟨s.writer_pos, (encodeRecord (k, some v)).length⟩, s.active_generation) := h1
    rw [hr1]
    have hr2 : (writeToActiveDataFile s (encodeEntry k (some v))).2.keydir = s.keydir := h2
    rw [hr2]
    rfl
  refine ⟨by rw [hset]; exact h6, by rw [hset]; rfl, ?_, ?_, ?_⟩
  · intro g hg
    rw [hset]
    exact h3 g hg
  · intro g b0 hb0
    rw [hset]
    exact h4 g b0 hb0
  · rw [hset]
    exact h5

theorem removeOp_snd (s : WriterState) (k : Bytes) :
    (removeOp s k).2 =
      { (writeToActiveDataFile s (encodeEntry k none)).2 with
        keydir := kdRemoveKey (writeToActiveDataFile s (encodeEntry k none)).2.keydir k } := by
  rw [removeOp]
  cases kdGet (writeToActiveDataFile s (encodeEntry k none)).2.keydir k <;> rfl

/-- `remove` under the invariant: the invariant is preserved, the key is gone
from the keydir, and files only grow (by the appended tombstone). -/
theorem removeOp_state_spec (s : WriterState) (k : Bytes) (hI : Inv s)
    (hk : k.length < 2 ^ 64) :
    Inv (removeOp s k).2 ∧
    (removeOp s k).2.keydir = kdRemoveKey s.keydir k ∧
    (∀ g ∈ s.dir, g ∈ (removeOp s k).2.dir) ∧
    (∀ g b0, storeGet s.store g = some b0 →
      ∃ ext, storeGet (removeOp s k).2.store g = some (b0 ++ ext)) := by
  obtain ⟨h1, h2, h3, h4, h5, h6⟩ :=
    writeRecord_spec s (k, none) hI (validRecord_none hk)
  have hrem : (removeOp s k).2 =
      { (writeToActiveDataFile s (encodeRecord (k, none))).2 with
        keydir := replayStep s.active_generation s.keydir
          ((k, none), ⟨s.writer_pos, (encodeRecord (k, none)).length⟩) } := by
    rw [removeOp_snd]
    have hr2 : (writeToActiveDataFile s (encodeEntry k none)).2.keydir = s.keydir := h2
    rw [hr2]
    rfl
  refine ⟨by rw [hrem]; exact h6, by rw [hrem]; rfl, ?_, ?_⟩
  · intro g hg
    rw [hrem]
    exact h3 g hg
  · intro g b0 hb0
    rw [hrem]
    exact h4 g b0 hb0

theorem Inv_runOp (s : WriterState) (op : Op) (hI : Inv s) (hop : validOp op = true) :
    Inv (runOp s op) := by
  cases op with
  | set k v =>
    rw [validOp, Bool.and_eq_true, decide_eq_true_eq, decide_eq_true_eq] at hop
    exact (setOp_spec s k v hI hop.1 hop.2).1
  | remove k =>
    rw [validOp, decide_eq_true_eq] at hop
    exact (removeOp_state_spec s k hI hop).1

theorem Inv_runOps (ops : List Op) (s : WriterState) (hI : Inv s)
    (hops : ∀ op ∈ ops, validOp op = true) : Inv (runOps s ops) := by
  induction ops generalizing s with
  | nil => exact hI
  | cons op ops ih =>
    rw [runOps]
    exact ih (runOp s op) (Inv_runOp s op hI (hops op (by simp)))
      (fun x hx => hops x (by simp [hx]))

/-! ## Reading back through the keydir

Both read-back paths reach `reader.seek(SeekFrom::Start(..))` on a
`BufReaderWithPos` and therefore never return, whatever the state. -/

theorem readValueChecked_none (s : WriterState) (e : KeyDirEntry) (k : Bytes) :
    readValueChecked s e k = none := by
  rw [readValueChecked]
  cases dirFile s e.data_file_gen <;> rfl

theorem readValueUnchecked_none (s : WriterState) (e : KeyDirEntry) :
    readValueUnchecked s e = none := by
  rw [readValueUnchecked]
  cases dirFile s e.data_file_gen <;> rfl

/-- What `get` observably does is determined by key presence alone: an
absent key answers `Ok(None)` without touching a file; a live key finds its
keydir entry and then aborts in the recursive seek. -/
theorem modelGet_eq (s : WriterState) (k : Bytes) :
    modelGet s k = match kdGet s.keydir k with
      | none => some none
      | some _ => none := by
  rw [modelGet]
  cases kdGet s.keydir k with
  | none => rfl
  | some e => exact readValueChecked_none s e k

/-! ## Close / re-open equivalence -/

theorem insertGen_of_mem {l : List Nat} (hs : l.Pairwise (· < ·)) {g : Nat} (h : g ∈ l) :
    insertGen g l = l := by
  induction l with
  | nil => cases h
  | cons x xs ih =>
    rw [insertGen]
    rcases List.mem_cons.mp h with h1 | h2
    · subst h1
      rw [if_neg (lt_irrefl g), if_pos rfl]
    · have hx : x < g := (List.pairwise_cons.mp hs).1 g h2
      rw [if_neg (by omega), if_neg (by omega), ih (List.pairwise_cons.mp hs).2 h2]

/-- Looking every listed generation back up in the store recovers the store
itself (generation keys are distinct). -/
theorem filterMap_lookup_self (st : List (Nat × Bytes))
    (hnd : (st.map Prod.fst).Nodup) :
    (st.map Prod.fst).filterMap
      (fun g => (storeGet st g).map (fun b => (g, b))) = st := by
  induction st with
  | nil => rfl
  | cons p rest ih =>
    obtain ⟨g0, b0⟩ := p
    have hnd' : g0 ∉ rest.map Prod.fst ∧ (rest.map Prod.fst).Nodup := by
      simpa using hnd
    have hg0 : storeGet ((g0, b0) :: rest) g0 = some b0 := by
      rw [storeGet, if_pos rfl]
    have hcongr : ∀ g ∈ rest.map Prod.fst,
        (storeGet ((g0, b0) :: rest) g).map (fun b => (g, b)) =
          (storeGet rest g).map (fun b => (g, b)) := by
      intro g hg
      have hne : ¬ (g0 = g) := fun hc => hnd'.1 (hc ▸ hg)
      rw [storeGet, if_neg hne]
    rw [List.map_cons, List.filterMap_cons, hg0]
    rw [List.filterMap_congr hcongr, ih hnd'.2]
    rfl

theorem Inv.dir_getLast {s : WriterState} (hI : Inv s) :
    s.dir.getLast?.getD 0 = s.active_generation := by
  obtain ⟨init, b, hsp, -, -, -, -⟩ := hI.decomp
  rw [hI.hdirkeys, hsp]
  simp

/-- Re-opening the directory of an invariant state succeeds and rebuilds
exactly the in-memory keydir; every `get` answers as before. -/
theorem reopen_spec (s : WriterState) (hI : Inv s) (maxSize : Nat) (sync : Bool) :
    ∃ t, openModel s.store s.dir maxSize sync = some t ∧
      t.keydir = s.keydir ∧ t.store = s.store ∧ t.dir = s.dir ∧
      ∀ k, modelGet t k = modelGet s k := by
  obtain ⟨init, b, hsp, hpos, hnotin, hlt, hbound⟩ := hI.decomp
  have hgetb : storeGet s.store s.active_generation = some b := by
    rw [hsp, storeGet_snoc init _ b _ hnotin, if_pos rfl]
  have hnd : (s.store.map Prod.fst).Nodup := by
    have := hI.hsorted
    rw [hI.hdirkeys] at this
    exact List.Pairwise.imp Nat.ne_of_lt this
  have hfiles : s.dir.filterMap
      (fun g => (storeGet s.store g).map (fun b => (g, b))) = s.store := by
    rw [hI.hdirkeys]
    exact filterMap_lookup_self s.store hnd
  have hins : insertGen s.active_generation s.dir = s.dir :=
    insertGen_of_mem hI.hsorted hI.active_mem
  rw [openModel]
  dsimp only
  rw [hI.dir_getLast, hfiles, hI.hreplay, hgetb]
  dsimp only
  rw [hins]
  refine ⟨_, rfl, rfl, rfl, rfl, ?_⟩
  intro k
  rw [modelGet, modelGet]
  cases kdGet s.keydir k with
  | none => rfl
  | some e =>
    dsimp only
    rw [readValueChecked_none, readValueChecked_none]

theorem deleteGens_cons_self {g : Nat} (l : List Nat) (hg : g ∉ l) :
    deleteGens l (g :: l) = some [g] := by
  induction l with
  | nil => rfl
  | cons y ys ih =>
    have hgy : ¬ (g = y) := by
      intro hc
      exact hg (by simp [hc])
    rw [deleteGens, if_pos (by simp)]
    have herase : (g :: y :: ys).erase y = g :: ys := by
      rw [List.erase_cons, if_neg (by simpa using hgy)]
      simp
    rw [herase]
    exact ih (fun hc => hg (by simp [hc]))

theorem deleteGens_insertGen (l : List Nat) (g : Nat) (hg : g ∉ l) :
    deleteGens l (insertGen g l) = some [g] := by
  induction l with
  | nil => rfl
  | cons x xs ih =>
    have hgx : ¬ (g = x) := by
      intro hc
      exact hg (by simp [hc])
    rw [insertGen]
    by_cases hlt : g < x
    · rw [if_pos hlt, deleteGens, if_pos (by simp)]
      have herase : (g :: x :: xs).erase x = g :: xs := by
        rw [List.erase_cons, if_neg (by simpa using hgx)]
        simp
      rw [herase]
      exact deleteGens_cons_self xs (fun hc => hg (by simp [hc]))
    · rw [if_neg hlt, if_neg hgx, deleteGens, if_pos (by simp)]
      have herase : (x :: insertGen g xs).erase x = insertGen g xs := by
        simp
      rw [herase]
      exact ih (fun hc => hg (by simp [hc]))

/-- C10: `Writer::merge` creates the data file for generation
`active_generation + 1` before examining the keydir and, on success, deletes
every data file whose generation was listed before the merge; merging an
engine whose keydir is empty therefore succeeds, leaves the directory holding
only the single new empty merge-generation file, and increases the active
generation by exactly 1. -/
theorem C10_merge_with_empty_keydir (s : WriterState) (hkd : s.keydir = [])
    (hnot : storeGet s.store (s.active_generation + 1) = none)
    (hmem : (s.active_generation + 1) ∉ s.dir) :
    ∃ t, mergeOp s = some t ∧
      t.active_generation = s.active_generation + 1 ∧
      t.dir = [s.active_generation + 1] ∧
      t.keydir = [] ∧
      dirFile t (s.active_generation + 1) = some [] := by
  rw [mergeOp]
  try dsimp only
  have h1 : (createDataFile s (s.active_generation + 1)).keydir = ([] : KeyDir) := hkd
  rw [h1, mergeLoop]
  try dsimp only
  have h2 : (createDataFile s (s.active_generation + 1)).dir =
      insertGen (s.active_generation + 1) s.dir := rfl
  rw [h2, deleteGens_insertGen s.dir _ hmem]
  try dsimp only
  refine ⟨_, rfl, rfl, rfl, rfl, ?_⟩
  have h3 : (createDataFile s (s.active_generation + 1)).store =
      s.store ++ [(s.active_generation + 1, [])] := by
    rw [createDataFile]
    try dsimp only
    rw [hnot]
  rw [dirFile, if_pos (by simp)]
  try dsimp only
  rw [h3, storeGet_append, hnot]
  try dsimp only
  rw [storeGet, if_pos rfl]

theorem seekModel_eq_none : ∀ (fuel : Nat) (r : BufReaderWithPos) (t : SeekFrom),
    seekModel fuel r t = none := by
  intro fuel r t
  induction fuel with
  | zero => rfl
  | succ fuel ih => rw [seekModel, ih]

/-- Rotation bookkeeping of a `set` on an arbitrary state: the size counter
grows by the encoded length, and exactly when it reaches
`max_data_file_size` the generation is bumped and the counter reset. -/
theorem setOp_size_gen (s : WriterState) (M S G : Nat) (k v : Bytes)
    (hM : s.max_data_file_size = M) (hS : s.active_data_file_size = S)
    (hG : s.active_generation = G) :
    (M ≤ S + (encodeEntry k (some v)).length →
      (setOp s k v).active_generation = G + 1 ∧
      (setOp s k v).active_data_file_size = 0) ∧
    (S + (encodeEntry k (some v)).length < M →
      (setOp s k v).active_generation = G ∧
      (setOp s k v).active_data_file_size =
        S + (encodeEntry k (some v)).length) := by
  subst hM
  subst hS
  subst hG
  constructor
  · intro h
    rw [setOp, writeToActiveDataFile]
    dsimp only
    rw [if_pos h]
    exact ⟨rfl, rfl⟩
  · intro h
    rw [setOp, writeToActiveDataFile]
    dsimp only
    rw [if_neg (by omega)]
    exact ⟨rfl, rfl⟩

/-! ## The claims -/

/-- C1: the claimed round-trip fails in the code: `set(K,V); get(K)` does
not return `Some(V)`.  Evaluated at the failing input (fresh open;
`set([1],[2])`; `get([1])`): the record is durably appended to the data file
and the keydir points at its extent, yet `get([1])` finds the entry, obtains
the reader and then aborts in the non-returning recursive
`BufReaderWithPos::seek` (`src/lib.rs:195`, `src/bufio.rs:51`) — it never
yields `Some([2])`; and `remove([1])` likewise aborts while reading the prior
value back (`src/writer.rs:402`), so the claim's second sequence
`set; remove; get` cannot even reach its `get`. -/
theorem C1_get_after_set_aborts :
    storeGet (setOp (freshState 100 false) [1] [2]).store 0 =
      some (encodeEntry [1] (some [2])) ∧
    kdGet (setOp (freshState 100 false) [1] [2]).keydir [1] =
      some ⟨0, ⟨0, (encodeEntry [1] (some [2])).length⟩⟩ ∧
    modelGet (setOp (freshState 100 false) [1] [2]) [1] = none ∧
    (removeOp (setOp (freshState 100 false) [1] [2]) [1]).1 = none := by
  decide

/-- C2 (amended): the engine does not survive a `remove` of a live key — the
read-back of the prior value aborts in the recursive seek after the tombstone
is written — so only sequences whose removes all target keys absent at that
point (`opsComplete`) can be followed by a close and a re-open.  For every
such surviving sequence: the in-memory keydir equals the replay of the data
files in ascending generation order (`build_keydir`, tombstones removing and
other records overwriting); closing and re-opening the same directory
succeeds and rebuilds exactly that keydir; and every `get` answers as before
the close — `None` for absent keys, and for live keys the same non-returning
seek on both sides, never a value. -/
theorem C2_close_reopen_rebuild (maxSize : Nat) (sync : Bool) (ops : List Op)
    (hops : ∀ op ∈ ops, validOp op = true)
    (_hsurv : opsComplete (freshState maxSize sync) ops = true) :
    buildKeydir (runOps (freshState maxSize sync) ops).store [] =
      some (runOps (freshState maxSize sync) ops).keydir ∧
    ∃ t, openModel (runOps (freshState maxSize sync) ops).store
        (runOps (freshState maxSize sync) ops).dir maxSize sync = some t ∧
      t.keydir = (runOps (freshState maxSize sync) ops).keydir ∧
      ∀ k, modelGet t k = modelGet (runOps (freshState maxSize sync) ops) k := by
  have hI := Inv_runOps ops _ (Inv_freshState maxSize sync) hops
  obtain ⟨t, h1, h2, h3, h4, h5⟩ := reopen_spec _ hI maxSize sync
  exact ⟨hI.hreplay, t, h1, h2, h5⟩

theorem C2_close_reopen_witness :
    buildKeydir (runOps (freshState 100 false)
        [Op.set [1] [2], Op.remove [9], Op.set [3] [4]]).store [] =
      some (runOps (freshState 100 false)
        [Op.set [1] [2], Op.remove [9], Op.set [3] [4]]).keydir ∧
    ∃ t, openModel (runOps (freshState 100 false)
        [Op.set [1] [2], Op.remove [9], Op.set [3] [4]]).store
        (runOps (freshState 100 false)
          [Op.set [1] [2], Op.remove [9], Op.set [3] [4]]).dir 100 false = some t ∧
      t.keydir = (runOps (freshState 100 false)
        [Op.set [1] [2], Op.remove [9], Op.set [3] [4]]).keydir ∧
      ∀ k, modelGet t k = modelGet (runOps (freshState 100 false)
        [Op.set [1] [2], Op.remove [9], Op.set [3] [4]]) k :=
  C2_close_reopen_rebuild 100 false [Op.set [1] [2], Op.remove [9], Op.set [3] [4]]
    (by decide) (by decide)

/-- C2: counterexample to the claim as stated, which quantifies over all
`set`/`remove` sequences.  The sequence `set([1],[2]); remove([1])` is one of
them, but the program never reaches the close: the `remove` of the live key
`[1]` appends its tombstone and then aborts in the non-returning recursive
seek while reading the prior value back — `opsComplete` is `false`.  Already
before any close the claimed "observable key-to-value mapping" does not
exist: after `set([1],[2])` the key is live in the keydir, yet `get([1])`
aborts instead of returning `[2]`. -/
theorem C2_remove_of_live_key_aborts :
    opsComplete (freshState 100 false) [Op.set [1] [2], Op.remove [1]] = false ∧
    (removeOp (runOps (freshState 100 false) [Op.set [1] [2]]) [1]).1 = none ∧
    (kdGet (runOps (freshState 100 false) [Op.set [1] [2]]).keydir [1]).isSome = true ∧
    modelGet (runOps (freshState 100 false) [Op.set [1] [2]]) [1] = none := by
  decide

/-- C3: the keydir pointing invariant (spec data-model invariant 1) is not
preserved by a `set` performed after a completed merge.  The only merge the
program completes is one of an empty keydir — the merge loop aborts in the
recursive seek on any entry — so, from a fresh open: `merge()` succeeds
(deleting the pre-merge generation-0 file and making the empty
generation-1 file active) and the invariant holds trivially; the next
`set([3],[4])` writes its record through the still-open `BufWriter` of the
deleted pre-merge file (`Writer::merge` never re-targets
`active_data_file`) while the keydir records generation 1 at offset 0 — but
the generation-1 file holds no bytes at all, so the fresh entry's extent
decodes to no record and the invariant is false. -/
theorem C3_pointing_invariant_broken_by_set_after_merge :
    (mergeOp (freshState 1000 false)).map
        (fun t => keydirPointsOk t) = some true ∧
    (mergeOp (freshState 1000 false)).map
        (fun t => keydirPointsOk (setOp t [3] [4])) = some false ∧
    (mergeOp (freshState 1000 false)).map
        (fun t => (kdGet (setOp t [3] [4]).keydir [3]).map
          (fun e => e.data_file_gen)) = some (some 1) ∧
    (mergeOp (freshState 1000 false)).map
        (fun t => dirFile (setOp t [3] [4]) 1) = some (some []) := by
  decide

/-- C4: the first `set` after opening a directory whose active data file is
non-empty does not append.  `Writer::new` (and the lib builder) opens the
active file without the append flag and never seeks, so the `BufWriter`
starts at position 0: with a 19-byte record already on disk, the rebuilt
keydir points at that record (the pointing invariant holds right after the
open), but the first `set` records offset 0 (not 19) and physically
overwrites the existing record's bytes — afterwards the old key's keydir
entry points at bytes that decode to the new record instead of its own, and
the pointing invariant is false. -/
theorem C4_first_set_after_open_overwrites :
    (openModel [(0, encodeEntry [1] (some [2]))] [0] 1000 false).map
        (fun s => s.writer_pos) = some 0 ∧
    (openModel [(0, encodeEntry [1] (some [2]))] [0] 1000 false).map
        (fun s => kdGet s.keydir [1]) =
      some (some ⟨0, ⟨0, (encodeEntry [1] (some [2])).length⟩⟩) ∧
    (openModel [(0, encodeEntry [1] (some [2]))] [0] 1000 false).map
        (fun s => keydirPointsOk s) = some true ∧
    (openModel [(0, encodeEntry [1] (some [2]))] [0] 1000 false).map
        (fun s => kdGet (setOp s [3] [4]).keydir [3]) =
      some (some ⟨0, ⟨0, (encodeEntry [3] (some [4])).length⟩⟩) ∧
    (openModel [(0, encodeEntry [1] (some [2]))] [0] 1000 false).map
        (fun s => storeGet (setOp s [3] [4]).store 0) =
      some (some (encodeEntry [3] (some [4]))) ∧
    (openModel [(0, encodeEntry [1] (some [2]))] [0] 1000 false).map
        (fun s => keydirPointsOk (setOp s [3] [4])) = some false := by
  decide

/-- C5: `remove(K)` of a live key does not return the preceding `get`'s
value.  Evaluated at the failing input (fresh open; `set([1],[2])`;
`remove([1])`): the `remove` appends its tombstone and deletes the keydir
entry — those effects are durable on disk and in memory — and then aborts in
the non-returning recursive seek while reading the prior value back
(`src/writer.rs:402`, `src/bufio.rs:51`), so it never returns `Some([2])`.
Only the absent-key half of the claim holds: `remove` of a key not in the
keydir returns `None` without error. -/
theorem C5_remove_of_live_key_never_returns :
    (removeOp (setOp (freshState 100 false) [1] [2]) [1]).1 = none ∧
    (removeOp (setOp (freshState 100 false) [1] [2]) [1]).2.keydir = [] ∧
    storeGet (removeOp (setOp (freshState 100 false) [1] [2]) [1]).2.store 0 =
      some (encodeEntry [1] (some [2]) ++ encodeEntry [1] none) ∧
    (removeOp (freshState 100 false) [9]).1 = some none := by
  decide

/-- C6: `LogFileIterator::next` silently returns end-of-sequence on a
mid-record end-of-file.  For a file holding one valid record followed by a
single stray byte (a truncated record prefix), the iterator yields the valid
record and then terminates cleanly — `bincode` reports the mid-record EOF as
`io::ErrorKind::UnexpectedEof`, which `next` maps to `None` exactly as it
does a clean end of stream, with no error or abort. -/
theorem C6_iterator_silently_ends_on_truncated_record :
    fileRecords (encodeEntry [107] (some [118]) ++ [0]) =
      some [(([107], some [118]), ⟨0, (encodeEntry [107] (some [118])).length⟩)] ∧
    (encodeEntry [107] (some [118]) ++ [0]).drop
        (encodeEntry [107] (some [118])).length = [0] := by
  decide

/-- C7: `BufReaderWithPos::seek` never terminates — its body's first
statement `self.seek(pos)` re-enters the same trait method (there is no
inherent `seek` and the inner reader is never consulted), so no stack depth
suffices for the call to return, while `read` does advance the logical
offset by exactly the number of bytes read. -/
theorem C7_seek_diverges_read_tracks_pos (fuel : Nat) (r : BufReaderWithPos)
    (target : SeekFrom) (n : Nat) :
    seekModel fuel r target = none ∧ (readModel r n).2.pos = r.pos + n :=
  ⟨seekModel_eq_none fuel r target, rfl⟩

/-- C9: a mutation through one cloned handle is not observed as shared state
through the other.  `active_generation`, the size counter and the reader map
are plain fields copied by `Clone`, and rotation rebinds only the rotating
handle's writer `Arc` and reader map.  With `max_data_file_size = 1`, after
handle A's `set([1],[2])` (which rotates to generation 1) and `set([3],[4])`
(written to generation 1, rotating to 2): the shared keydir records
generation 1 for `[3]`; A's reader map holds a reader for generation 1 but
the stale clone B's does not, so `B.get([3])` panics at
`data_file_readers.get_mut(..).expect(..)` before any read; B's
`active_generation` is still 0 against A's 2; and B's writer `Arc` still
targets the generation-0 file while A's targets generation 2, so a write
through B would go to a different file than one through A. -/
theorem C9_clone_misses_rotation :
    (let o := libOpenFresh 1
     let hB := o.2
     let s1 := libSet o.1 o.2 [1] [2]
     let s2 := libSet s1.1 s1.2 [3] [4]
     (kdGet s2.1.keydir [3]).map (fun e => e.data_file_gen) = some 1 ∧
     1 ∈ s2.2.reader_gens ∧
     1 ∉ hB.reader_gens ∧
     libGet s2.1 hB [3] = none ∧
     hB.active_generation ≠ s2.2.active_generation ∧
     (wGet s2.1.writers hB.writer_id).1 ≠ (wGet s2.1.writers s2.2.writer_id).1) := by
  decide

theorem C10_merge_empty_witness :
    ∃ t, mergeOp (freshState 5 false) = some t ∧
      t.active_generation = (freshState 5 false).active_generation + 1 ∧
      t.dir = [(freshState 5 false).active_generation + 1] ∧
      t.keydir = [] ∧
      dirFile t ((freshState 5 false).active_generation + 1) = some [] :=
  C10_merge_with_empty_keydir (freshState 5 false) rfl (by decide) (by decide)

/-- C8: opening a directory through `Writer::new` initialises the
active-file-size counter from the active data file's byte length
(`metadata().len()`), so the first write that brings the counter to at least
`max_data_file_size` triggers rotation; afterwards the counter tracks bytes
written since the last rotation and is reset to 0 by rotation. -/
theorem C8_open_initialises_size_counter (store : List (Nat × Bytes)) (dir : List Nat)
    (maxSize : Nat) (sync : Bool) (t : WriterState) (b : Bytes)
    (hopen : openModel store dir maxSize sync = some t)
    (hb : storeGet t.store t.active_generation = some b) :
    t.active_data_file_size = b.length ∧
    t.max_data_file_size = maxSize ∧
    ∀ k v,
      (t.max_data_file_size ≤ t.active_data_file_size + (encodeEntry k (some v)).length →
        (setOp t k v).active_generation = t.active_generation + 1 ∧
        (setOp t k v).active_data_file_size = 0) ∧
      (t.active_data_file_size + (encodeEntry k (some v)).length < t.max_data_file_size →
        (setOp t k v).active_generation = t.active_generation ∧
        (setOp t k v).active_data_file_size =
          t.active_data_file_size + (encodeEntry k (some v)).length) := by
  rw [openModel] at hopen
  try dsimp only at hopen
  cases hbk : buildKeydir
      (dir.filterMap (fun g => (storeGet store g).map (fun b => (g, b)))) [] with
  | none =>
    rw [hbk] at hopen
    cases hopen
  | some kd =>
    rw [hbk] at hopen
    try dsimp only at hopen
    have ht : t = _ := (Option.some.inj hopen).symm
    subst ht
    try dsimp only at hb ⊢
    refine ⟨?_, rfl, ?_⟩
    · rw [hb]
      rfl
    · intro k v
      exact setOp_size_gen _ _ _ _ k v rfl rfl rfl

theorem C8_open_size_witness :
    ((openModel [(0, encodeEntry [1] (some [2]))] [0] 20 false).getD
        (freshState 0 false)).active_data_file_size =
      (encodeEntry [1] (some [2])).length ∧
    ((openModel [(0, encodeEntry [1] (some [2]))] [0] 20 false).getD
        (freshState 0 false)).max_data_file_size = 20 ∧
    ∀ k v,
      (((openModel [(0, encodeEntry [1] (some [2]))] [0] 20 false).getD
            (freshState 0 false)).max_data_file_size ≤
          ((openModel [(0, encodeEntry [1] (some [2]))] [0] 20 false).getD
            (freshState 0 false)).active_data_file_size +
            (encodeEntry k (some v)).length →
        (setOp ((openModel [(0, encodeEntry [1] (some [2]))] [0] 20 false).getD
            (freshState 0 false)) k v).active_generation =
          ((openModel [(0, encodeEntry [1] (some [2]))] [0] 20 false).getD
            (freshState 0 false)).active_generation + 1 ∧
        (setOp ((openModel [(0, encodeEntry [1] (some [2]))] [0] 20 false).getD
            (freshState 0 false)) k v).active_data_file_size = 0) ∧
      (((openModel [(0, encodeEntry [1] (some [2]))] [0] 20 false).getD
            (freshState 0 false)).active_data_file_size +
            (encodeEntry k (some v)).length <
          ((openModel [(0, encodeEntry [1] (some [2]))] [0] 20 false).getD
            (freshState 0 false)).max_data_file_size →
        (setOp ((openModel [(0, encodeEntry [1] (some [2]))] [0] 20 false).getD
            (freshState 0 false)) k v).active_generation =
          ((openModel [(0, encodeEntry [1] (some [2]))] [0] 20 false).getD
            (freshState 0 false)).active_generation ∧
        (setOp ((openModel [(0, encodeEntry [1] (some [2]))] [0] 20 false).getD
            (freshState 0 false)) k v).active_data_file_size =
          ((openModel [(0, encodeEntry [1] (some [2]))] [0] 20 false).getD
            (freshState 0 false)).active_data_file_size +
            (encodeEntry k (some v)).length) :=
  C8_open_initialises_size_counter [(0, encodeEntry [1] (some [2]))] [0] 20 false
    ((openModel [(0, encodeEntry [1] (some [2]))] [0] 20 false).getD (freshState 0 false))
    (encodeEntry [1] (some [2])) (by decide) (by decide)

end Rustcask
